import Mathlib

/-!
Verification of the CTR random-access edit oracle and the plaintext-recovery
attack from set4/challenge25.py of the cryptopals repository.

Shallow embedding: Python byte strings become `List Nat` (each element a byte
value), and the AES-CTR keystream derived from the oracle key and nonce is
modelled as an arbitrary function `ks : Nat -> Nat` from byte position to
keystream byte (AES itself is an external primitive supplied by the
`cryptography` library; every theorem below is proved for every keystream
function, so in particular for the real one).
-/

/-- Translation of `xorstr(s1, s2)` from the source: byte-wise XOR of two
strings. The Python version indexes `s2[i]` for every `i < len(s1)` and is
only defined when `len(s1) <= len(s2)`; on that domain it agrees with this
element-wise recursion. Every call site in the module uses equal lengths. -/
def xorstr : List Nat → List Nat → List Nat
  | [], _ => []
  | _, [] => []
  | c1 :: s1, c2 :: s2 => (c1 ^^^ c2) :: xorstr s1 s2

/-- Counter-mode XOR starting at stream position `pos`: byte `i` of the input
is XORed with keystream byte `pos + i`. A fresh `encryptor()`/`decryptor()`
context in the source always starts at `pos = 0`. -/
def ctrXor (ks : Nat → Nat) : Nat → List Nat → List Nat
  | _, [] => []
  | pos, b :: rest => (b ^^^ ks pos) :: ctrXor ks (pos + 1) rest

/-- Translation of the `SessionOracle` instance state built by `__init__`:
a 16-byte random key, a 16-byte random nonce, and the AES-CTR cipher keyed by
them, which is determined by the keystream function `ks` it induces. -/
structure SessionOracle where
  key : List Nat
  nonce : List Nat
  ks : Nat → Nat

/-- Translation of `SessionOracle.encrypt`: a fresh encryptor context is
created on every call, so the keystream is applied from position 0. -/
def SessionOracle.encrypt (o : SessionOracle) (pt : List Nat) : List Nat :=
  ctrXor o.ks 0 pt

/-- Translation of the private `SessionOracle.__decrypt`: a fresh decryptor
context on every call; CTR decryption is the same XOR from position 0. -/
def SessionOracle.decrypt (o : SessionOracle) (ct : List Nat) : List Nat :=
  ctrXor o.ks 0 ct

/-- The splice expression from `SessionOracle.edit`:
`pt[:offset] + newtext + pt[offset+len(newtext):]`. -/
def splice (pt : List Nat) (offset : Nat) (newtext : List Nat) : List Nat :=
  pt.take offset ++ newtext ++ pt.drop (offset + newtext.length)

/-- Translation of `SessionOracle.edit`: decrypt the ciphertext, splice in
`newtext` at `offset`, and re-encrypt, all with the same keystream from
position 0. The method performs no bounds check of any kind. -/
def SessionOracle.edit (o : SessionOracle) (ct : List Nat) (offset : Nat)
    (newtext : List Nat) : List Nat :=
  o.encrypt (splice (o.decrypt ct) offset newtext)

/-- Translation of the module-level attack function `decrypt(oracle, ct)`:
probe with the plaintext `new_pt` consisting of `len(ct)` copies of the byte
`A` (value 65) and return `xorstr(xorstr(ct, new_pt), oracle.edit(ct, 0,
new_pt))`. -/
def decrypt (oracle : SessionOracle) (ct : List Nat) : List Nat :=
  xorstr (xorstr ct (List.replicate ct.length 65))
    (oracle.edit ct 0 (List.replicate ct.length 65))

/-- The method `encrypt` viewed as a state transformer on the oracle: its
Python body assigns no attribute of `self`, so the post-state is the
pre-state. -/
def SessionOracle.encryptS (o : SessionOracle) (pt : List Nat) :
    List Nat × SessionOracle :=
  (o.encrypt pt, o)

/-- The method `__decrypt` viewed as a state transformer on the oracle: its
Python body assigns no attribute of `self`. -/
def SessionOracle.decryptS (o : SessionOracle) (ct : List Nat) :
    List Nat × SessionOracle :=
  (o.decrypt ct, o)

/-- The method `edit` viewed as a state transformer on the oracle: its Python
body assigns no attribute of `self`. -/
def SessionOracle.editS (o : SessionOracle) (ct : List Nat) (offset : Nat)
    (newtext : List Nat) : List Nat × SessionOracle :=
  (o.edit ct offset newtext, o)

/-- Modelled from the spec wording of the `edit` contract, step (2): overwrite
the byte range `[offset, offset+len(newtext))` of the recovered plaintext with
`newtext`, leaving every byte outside that range in place and the length
unchanged. -/
def overwriteRange (pt : List Nat) (offset : Nat) (newtext : List Nat) :
    List Nat :=
  (List.range pt.length).map fun i =>
    if offset ≤ i ∧ i < offset + newtext.length then newtext.getD (i - offset) 0
    else pt.getD i 0

/-- Modelled from the spec wording of the `edit` contract, steps (1)-(4):
decrypt from position 0, overwrite the range, re-encrypt from position 0. -/
def editSpec (o : SessionOracle) (ct : List Nat) (offset : Nat)
    (newtext : List Nat) : List Nat :=
  o.encrypt (overwriteRange (o.decrypt ct) offset newtext)

/-- Modelled from the spec: the InvalidRange check of section 7, which the
spec requires of `edit` — reject the request (returning no ciphertext) when
`offset + len(newtext) > len(ciphertext)`, otherwise behave as `edit`. -/
def editChecked (o : SessionOracle) (ct : List Nat) (offset : Nat)
    (newtext : List Nat) : Option (List Nat) :=
  if offset + newtext.length > ct.length then none
  else some (o.edit ct offset newtext)

/-- A concrete oracle instance used for witnesses and counterexamples. -/
def o0 : SessionOracle :=
  { key := List.replicate 16 3
    nonce := List.replicate 16 5
    ks := fun i => (i + 7) % 256 }

/- ## Helper lemmas -/

theorem xor_cancel_right (b k : Nat) : (b ^^^ k) ^^^ k = b := by
  rw [Nat.xor_assoc, Nat.xor_self, Nat.xor_zero]

theorem xor_probe_cancel (b k a : Nat) : ((b ^^^ k) ^^^ a) ^^^ (a ^^^ k) = b := by
  rw [Nat.xor_assoc, ← Nat.xor_assoc a a k, Nat.xor_self, Nat.zero_xor,
    xor_cancel_right]

theorem ctrXor_length (ks : Nat → Nat) (pos : Nat) (l : List Nat) :
    (ctrXor ks pos l).length = l.length := by
  induction l generalizing pos with
  | nil => rfl
  | cons b rest ih => simp [ctrXor, ih]

theorem ctrXor_ctrXor (ks : Nat → Nat) (pos : Nat) (l : List Nat) :
    ctrXor ks pos (ctrXor ks pos l) = l := by
  induction l generalizing pos with
  | nil => rfl
  | cons b rest ih => simp [ctrXor, ih, xor_cancel_right]

theorem ctrXor_getElemQ (ks : Nat → Nat) (pos : Nat) (l : List Nat) (i : Nat) :
    (ctrXor ks pos l)[i]? = l[i]?.map (fun b => b ^^^ ks (pos + i)) := by
  induction l generalizing pos i with
  | nil => simp [ctrXor]
  | cons b rest ih =>
    cases i with
    | zero => simp [ctrXor]
    | succ j =>
      simp only [ctrXor, List.getElem?_cons_succ, ih]
      rw [Nat.add_assoc, Nat.add_comm 1 j]

theorem ctrXor_getD (ks : Nat → Nat) (pos : Nat) (l : List Nat) (i : Nat)
    (h : i < l.length) :
    (ctrXor ks pos l).getD i 0 = l.getD i 0 ^^^ ks (pos + i) := by
  rw [List.getD_eq_getElem?_getD, List.getD_eq_getElem?_getD,
    ctrXor_getElemQ, List.getElem?_eq_getElem h]
  rfl

theorem recover_aux (ks : Nat → Nat) (a : Nat) (pos : Nat) (l : List Nat) :
    xorstr (xorstr (ctrXor ks pos l) (List.replicate l.length a))
      (ctrXor ks pos (List.replicate l.length a)) = l := by
  induction l generalizing pos with
  | nil => rfl
  | cons b rest ih =>
    simp only [List.length_cons, List.replicate_succ, ctrXor, xorstr]
    rw [ih, xor_probe_cancel]

theorem splice_length_le (pt : List Nat) (offset : Nat) (newtext : List Nat)
    (h : offset + newtext.length ≤ pt.length) :
    (splice pt offset newtext).length = pt.length := by
  simp only [splice, List.length_append, List.length_take, List.length_drop]
  omega

theorem splice_length_over (pt : List Nat) (offset : Nat) (newtext : List Nat)
    (h1 : offset ≤ pt.length) (h2 : pt.length < offset + newtext.length) :
    (splice pt offset newtext).length = offset + newtext.length := by
  simp only [splice, List.length_append, List.length_take, List.length_drop]
  omega

theorem splice_zero_full (pt newtext : List Nat) (h : newtext.length = pt.length) :
    splice pt 0 newtext = newtext := by
  simp [splice, h, List.drop_length]

theorem splice_getElemQ_left (pt : List Nat) (offset : Nat) (newtext : List Nat)
    (i : Nat) (hi : i < offset) (ho : i < pt.length) :
    (splice pt offset newtext)[i]? = pt[i]? := by
  have hlen : i < (pt.take offset).length := by
    simp only [List.length_take]
    omega
  have hlen2 : i < (pt.take offset ++ newtext).length := by
    simp only [List.length_append]
    omega
  rw [splice, List.getElem?_append_left hlen2, List.getElem?_append_left hlen,
    List.getElem?_take_of_lt hi]

theorem splice_getElemQ_right (pt : List Nat) (offset : Nat) (newtext : List Nat)
    (i : Nat) (h1 : offset ≤ pt.length) (hi : offset + newtext.length ≤ i) :
    (splice pt offset newtext)[i]? = pt[i]? := by
  have h2 : (pt.take offset ++ newtext).length ≤ i := by
    simp only [List.length_append, List.length_take]
    omega
  rw [splice, List.getElem?_append_right h2, List.getElem?_drop]
  congr 1
  simp only [List.length_append, List.length_take]
  omega

theorem splice_getElemQ_mid (pt : List Nat) (offset : Nat) (newtext : List Nat)
    (i : Nat) (h1 : offset ≤ pt.length) (hlo : offset ≤ i)
    (hhi : i < offset + newtext.length) :
    (splice pt offset newtext)[i]? = newtext[i - offset]? := by
  have h2 : i < (pt.take offset ++ newtext).length := by
    simp only [List.length_append, List.length_take]
    omega
  have h3 : (pt.take offset).length ≤ i := by
    simp only [List.length_take]
    omega
  rw [splice, List.getElem?_append_left h2, List.getElem?_append_right h3]
  congr 1
  simp only [List.length_take]
  omega

theorem overwriteRange_getElemQ (pt : List Nat) (offset : Nat)
    (newtext : List Nat) (i : Nat) (h : i < pt.length) :
    (overwriteRange pt offset newtext)[i]?
      = some (if offset ≤ i ∧ i < offset + newtext.length
          then newtext.getD (i - offset) 0 else pt.getD i 0) := by
  rw [overwriteRange, List.getElem?_map, List.getElem?_range h]
  rfl

theorem overwriteRange_length (pt : List Nat) (offset : Nat)
    (newtext : List Nat) :
    (overwriteRange pt offset newtext).length = pt.length := by
  simp [overwriteRange]

theorem splice_eq_overwriteRange (pt : List Nat) (offset : Nat)
    (newtext : List Nat) (h : offset + newtext.length ≤ pt.length) :
    splice pt offset newtext = overwriteRange pt offset newtext := by
  apply List.ext_getElem?
  intro i
  by_cases hi : i < pt.length
  · rw [overwriteRange_getElemQ pt offset newtext i hi]
    by_cases hlo : offset ≤ i
    · by_cases hhi : i < offset + newtext.length
      · rw [splice_getElemQ_mid pt offset newtext i (by omega) hlo hhi,
          List.getElem?_eq_getElem (show i - offset < newtext.length by omega)]
        simp [hlo, hhi, List.getD_eq_getElem?_getD,
          List.getElem?_eq_getElem (show i - offset < newtext.length by omega)]
      · rw [splice_getElemQ_right pt offset newtext i (by omega) (by omega),
          List.getElem?_eq_getElem hi]
        simp [hlo, hhi, List.getD_eq_getElem?_getD, List.getElem?_eq_getElem hi]
    · rw [splice_getElemQ_left pt offset newtext i (by omega) hi,
        List.getElem?_eq_getElem hi]
      have hno : ¬(offset ≤ i ∧ i < offset + newtext.length) := by omega
      simp [hno, List.getD_eq_getElem?_getD, List.getElem?_eq_getElem hi]
  · rw [List.getElem?_eq_none (by rw [splice_length_le pt offset newtext h]; omega),
      List.getElem?_eq_none (by rw [overwriteRange_length]; omega)]

theorem splice_splice (pt : List Nat) (offset : Nat) (newtext : List Nat)
    (h : offset ≤ pt.length) :
    splice (splice pt offset newtext) offset newtext
      = splice pt offset newtext := by
  have hta : (pt.take offset).length = offset := by
    simp only [List.length_take]
    omega
  have h1 : (splice pt offset newtext).take offset = pt.take offset := by
    rw [splice, List.append_assoc]
    exact List.take_left' hta
  have h2 : (splice pt offset newtext).drop (offset + newtext.length)
      = pt.drop (offset + newtext.length) := by
    rw [splice]
    apply List.drop_left'
    simp only [List.length_append, hta]
  rw [splice, h1, h2]
  rfl

theorem xor_xor_self (x k : Nat) : (x ^^^ k) ^^^ x = k := by
  rw [Nat.xor_comm x k, xor_cancel_right]

/- ## Claim theorems -/

/-- C1: for every plaintext `P`, if `C = oracle.encrypt(P)` on a
`SessionOracle` instance, then the recovery algorithm `decrypt(oracle, C)`,
which uses only the oracle `edit` operation, returns exactly `P`. -/
theorem C1_full_recovery (o : SessionOracle) (P : List Nat) :
    decrypt o (o.encrypt P) = P := by
  have hlen : (o.encrypt P).length = P.length := ctrXor_length o.ks 0 P
  have hedit : o.edit (o.encrypt P) 0 (List.replicate (o.encrypt P).length 65)
      = o.encrypt (List.replicate (o.encrypt P).length 65) := by
    rw [SessionOracle.edit]
    congr 1
    rw [SessionOracle.decrypt, SessionOracle.encrypt, ctrXor_ctrXor]
    exact splice_zero_full P _ (by simp [ctrXor_length])
  rw [decrypt, hedit, SessionOracle.encrypt, SessionOracle.encrypt,
    ctrXor_length]
  exact recover_aux o.ks 65 0 P

/-- C2 counterexample: calling `edit` with `ct = [0]`, `offset = 0` and
`newtext = [1, 2]` violates the range precondition (`0 + 2 > 1`); the
spec-modelled InvalidRange check rejects this request, but the code raises no
error: it returns the ciphertext `[6, 10]` (the full splice, re-encrypted),
whose length 2 differs from the input length 1. -/
theorem C2_counterexample :
    editChecked o0 [0] 0 [1, 2] = none ∧
      o0.edit [0] 0 [1, 2] = [6, 10] ∧
      (o0.edit [0] 0 [1, 2]).length ≠ ([0] : List Nat).length := by
  refine ⟨by decide, by decide, by decide⟩

/-- C2 amended: a call `edit(C, offset, newtext)` with
`offset + len(newtext) > len(C)` (and `offset <= len(C)`) does not fail: no
error is signalled, the splice silently extends the plaintext so that the
returned ciphertext has length `offset + len(newtext)`, and the oracle
internal state (key and nonce) is unchanged. -/
theorem C2_overrange_no_error (o : SessionOracle) (ct : List Nat)
    (offset : Nat) (newtext : List Nat) (h1 : offset ≤ ct.length)
    (h2 : ct.length < offset + newtext.length) :
    (o.editS ct offset newtext).1.length = offset + newtext.length ∧
      (o.editS ct offset newtext).2 = o := by
  have hpt : (o.decrypt ct).length = ct.length := ctrXor_length o.ks 0 ct
  constructor
  · show (o.edit ct offset newtext).length = offset + newtext.length
    rw [SessionOracle.edit, SessionOracle.encrypt, ctrXor_length,
      splice_length_over _ _ _ (by omega) (by omega)]
  · rfl

/-- C2 witness at a concrete over-range input. -/
theorem C2_overrange_no_error_witness :
    (0 ≤ ([0] : List Nat).length ∧
        ([0] : List Nat).length < 0 + ([1, 2] : List Nat).length) ∧
      ((o0.editS [0] 0 [1, 2]).1.length = 0 + ([1, 2] : List Nat).length ∧
        (o0.editS [0] 0 [1, 2]).2 = o0) :=
  ⟨⟨by decide, by decide⟩,
    C2_overrange_no_error o0 [0] 0 [1, 2] (by decide) (by decide)⟩

/-- C3: under the precondition `offset + len(newtext) <= len(ct)`, `edit`
returns exactly the re-encryption (keystream from position 0) of the
decryption of `ct` (keystream from position 0) with the byte range
`[offset, offset + len(newtext))` overwritten by `newtext`, and the returned
ciphertext has the same length as the input ciphertext. -/
theorem C3_edit_contract (o : SessionOracle) (ct : List Nat) (offset : Nat)
    (newtext : List Nat) (h : offset + newtext.length ≤ ct.length) :
    o.edit ct offset newtext = editSpec o ct offset newtext ∧
      (o.edit ct offset newtext).length = ct.length := by
  have hpt : (o.decrypt ct).length = ct.length := ctrXor_length o.ks 0 ct
  constructor
  · rw [SessionOracle.edit, editSpec,
      splice_eq_overwriteRange _ _ _ (by omega)]
  · rw [SessionOracle.edit, SessionOracle.encrypt, ctrXor_length,
      splice_length_le _ _ _ (by omega), hpt]

/-- C3 witness at a concrete in-range input. -/
theorem C3_edit_contract_witness :
    (1 + ([9, 9] : List Nat).length ≤ ([10, 20, 30, 40] : List Nat).length) ∧
      (o0.edit [10, 20, 30, 40] 1 [9, 9] = editSpec o0 [10, 20, 30, 40] 1 [9, 9] ∧
        (o0.edit [10, 20, 30, 40] 1 [9, 9]).length
          = ([10, 20, 30, 40] : List Nat).length) :=
  ⟨by decide, C3_edit_contract o0 [10, 20, 30, 40] 1 [9, 9] (by decide)⟩

/-- C4: for a fixed oracle instance, `encrypt(P1)[i] XOR P1[i]` equals
`encrypt(P2)[i] XOR P2[i]` for every `i < min(len(P1), len(P2))`: the
keystream byte at each position depends only on the position, not on the
plaintext, and every `encrypt` call starts the keystream at position 0. -/
theorem C4_keystream_determinism (o : SessionOracle) (P1 P2 : List Nat)
    (i : Nat) (h : i < min P1.length P2.length) :
    (o.encrypt P1).getD i 0 ^^^ P1.getD i 0
      = (o.encrypt P2).getD i 0 ^^^ P2.getD i 0 := by
  rw [SessionOracle.encrypt, SessionOracle.encrypt,
    ctrXor_getD _ _ _ _ (show i < P1.length by omega),
    ctrXor_getD _ _ _ _ (show i < P2.length by omega),
    xor_xor_self, xor_xor_self]

/-- C4 witness at two concrete plaintexts of different lengths. -/
theorem C4_keystream_determinism_witness :
    (1 < min ([1, 2, 3] : List Nat).length ([4, 5] : List Nat).length) ∧
      (o0.encrypt [1, 2, 3]).getD 1 0 ^^^ ([1, 2, 3] : List Nat).getD 1 0
        = (o0.encrypt [4, 5]).getD 1 0 ^^^ ([4, 5] : List Nat).getD 1 0 :=
  ⟨by decide, C4_keystream_determinism o0 [1, 2, 3] [4, 5] 1 (by decide)⟩

/-- C5: decrypting the result of encrypting any plaintext `P` on the same
oracle instance (same key, nonce and keystream) yields `P` again. -/
theorem C5_round_trip (o : SessionOracle) (P : List Nat) :
    o.decrypt (o.encrypt P) = P :=
  ctrXor_ctrXor o.ks 0 P

/-- C6: under the precondition `offset + len(newtext) <= len(ct)`, the
ciphertext returned by `edit` agrees byte-for-byte with `ct` at every index
outside the edited range `[offset, offset + len(newtext))`. -/
theorem C6_frame (o : SessionOracle) (ct : List Nat) (offset : Nat)
    (newtext : List Nat) (i : Nat) (h : offset + newtext.length ≤ ct.length)
    (hout : i < offset ∨ offset + newtext.length ≤ i) (hi : i < ct.length) :
    (o.edit ct offset newtext).getD i 0 = ct.getD i 0 := by
  have hpt : (o.decrypt ct).length = ct.length := ctrXor_length o.ks 0 ct
  have hsp : (splice (o.decrypt ct) offset newtext)[i]? = (o.decrypt ct)[i]? := by
    rcases hout with hlt | hge
    · exact splice_getElemQ_left _ _ _ _ hlt (by omega)
    · exact splice_getElemQ_right _ _ _ _ (by omega) hge
  rw [List.getD_eq_getElem?_getD, List.getD_eq_getElem?_getD,
    SessionOracle.edit, SessionOracle.encrypt, ctrXor_getElemQ, hsp,
    SessionOracle.decrypt, ctrXor_getElemQ, List.getElem?_eq_getElem hi]
  simp [xor_cancel_right]

/-- C6 witness at a concrete index to the right of the edited range. -/
theorem C6_frame_witness :
    (1 + ([7] : List Nat).length ≤ ([1, 2, 3, 4] : List Nat).length) ∧
      (3 < 1 ∨ 1 + ([7] : List Nat).length ≤ 3) ∧
      (3 < ([1, 2, 3, 4] : List Nat).length) ∧
      (o0.edit [1, 2, 3, 4] 1 [7]).getD 3 0 = ([1, 2, 3, 4] : List Nat).getD 3 0 :=
  ⟨by decide, by decide, by decide,
    C6_frame o0 [1, 2, 3, 4] 1 [7] 3 (by decide) (by decide) (by decide)⟩

/-- C7: under the precondition `offset + len(newtext) <= len(ct)`, `edit` is
deterministic across repeated calls on the same oracle state (a second call
after the first, on the state the first call leaves behind, returns the same
ciphertext), and applying `edit` to its own output with the same
`(offset, newtext)` returns that output unchanged. -/
theorem C7_edit_idempotent (o : SessionOracle) (ct : List Nat) (offset : Nat)
    (newtext : List Nat) (h : offset + newtext.length ≤ ct.length) :
    ((o.editS ct offset newtext).2.edit ct offset newtext
        = o.edit ct offset newtext) ∧
      o.edit (o.edit ct offset newtext) offset newtext
        = o.edit ct offset newtext := by
  have hpt : (ctrXor o.ks 0 ct).length = ct.length := ctrXor_length o.ks 0 ct
  refine ⟨rfl, ?_⟩
  simp only [SessionOracle.edit, SessionOracle.encrypt, SessionOracle.decrypt]
  rw [ctrXor_ctrXor, splice_splice _ _ _ (by omega)]

/-- C7 witness at a concrete in-range input. -/
theorem C7_edit_idempotent_witness :
    (1 + ([9] : List Nat).length ≤ ([1, 2, 3] : List Nat).length) ∧
      (((o0.editS [1, 2, 3] 1 [9]).2.edit [1, 2, 3] 1 [9]
          = o0.edit [1, 2, 3] 1 [9]) ∧
        o0.edit (o0.edit [1, 2, 3] 1 [9]) 1 [9] = o0.edit [1, 2, 3] 1 [9]) :=
  ⟨by decide, C7_edit_idempotent o0 [1, 2, 3] 1 [9] (by decide)⟩

/-- C8: for a probe `newProbe` of the same length as the ciphertext `ct`,
`edit(ct, 0, newProbe)` equals `encrypt(newProbe)`, i.e.
`newProbe XOR keystream[0..L)`: at each position `i < L` the result byte is
`newProbe[i] XOR ks(i)`, independent of the content of `ct`. -/
theorem C8_probe_full_replace (o : SessionOracle) (ct newProbe : List Nat)
    (i : Nat) (h : newProbe.length = ct.length) (hi : i < ct.length) :
    o.edit ct 0 newProbe = o.encrypt newProbe ∧
      (o.edit ct 0 newProbe).getD i 0 = newProbe.getD i 0 ^^^ o.ks i := by
  have hpt : (o.decrypt ct).length = ct.length := ctrXor_length o.ks 0 ct
  have he : o.edit ct 0 newProbe = o.encrypt newProbe := by
    rw [SessionOracle.edit, splice_zero_full _ _ (by omega)]
  refine ⟨he, ?_⟩
  rw [he, SessionOracle.encrypt, ctrXor_getD _ _ _ _ (by omega), Nat.zero_add]

/-- C8 witness at a concrete ciphertext and probe of equal length. -/
theorem C8_probe_full_replace_witness :
    (([8, 9] : List Nat).length = ([5, 6] : List Nat).length) ∧
      (0 < ([5, 6] : List Nat).length) ∧
      (o0.edit [5, 6] 0 [8, 9] = o0.encrypt [8, 9] ∧
        (o0.edit [5, 6] 0 [8, 9]).getD 0 0 = ([8, 9] : List Nat).getD 0 0 ^^^ o0.ks 0) :=
  ⟨by decide, by decide,
    C8_probe_full_replace o0 [5, 6] [8, 9] 0 (by decide) (by decide)⟩

/-- C9: the oracle key and nonce are set at construction and no operation
modifies them: `encrypt`, the internal decrypt, and `edit`, each viewed as a
state transformer, leave the key and nonce fields of the instance unchanged. -/
theorem C9_state_immutable (o : SessionOracle) (pt ct ct2 : List Nat)
    (offset : Nat) (newtext : List Nat) :
    ((o.encryptS pt).2.key = o.key ∧ (o.encryptS pt).2.nonce = o.nonce) ∧
      ((o.decryptS ct).2.key = o.key ∧ (o.decryptS ct).2.nonce = o.nonce) ∧
      ((o.editS ct2 offset newtext).2.key = o.key ∧
        (o.editS ct2 offset newtext).2.nonce = o.nonce) :=
  ⟨⟨rfl, rfl⟩, ⟨rfl, rfl⟩, rfl, rfl⟩

/-- C10: when `edit` is called with `0 <= offset <= len(ct)` but
`offset + len(newtext) > len(ct)`, no error is raised (the function returns a
ciphertext), the splice silently extends the plaintext, and the result has
length `offset + len(newtext)`, strictly greater than `len(ct)`. -/
theorem C10_overrange_extends (o : SessionOracle) (ct : List Nat)
    (offset : Nat) (newtext : List Nat) (h1 : offset ≤ ct.length)
    (h2 : ct.length < offset + newtext.length) :
    (o.edit ct offset newtext).length = offset + newtext.length ∧
      ct.length < (o.edit ct offset newtext).length := by
  have hpt : (o.decrypt ct).length = ct.length := ctrXor_length o.ks 0 ct
  have hl : (o.edit ct offset newtext).length = offset + newtext.length := by
    rw [SessionOracle.edit, SessionOracle.encrypt, ctrXor_length,
      splice_length_over _ _ _ (by omega) (by omega)]
  exact ⟨hl, by omega⟩

/-- C10 witness at a concrete over-range input. -/
theorem C10_overrange_extends_witness :
    (0 ≤ ([0] : List Nat).length ∧
        ([0] : List Nat).length < 0 + ([1, 2, 3] : List Nat).length) ∧
      ((o0.edit [0] 0 [1, 2, 3]).length = 0 + ([1, 2, 3] : List Nat).length ∧
        ([0] : List Nat).length < (o0.edit [0] 0 [1, 2, 3]).length) :=
  ⟨⟨by decide, by decide⟩,
    C10_overrange_extends o0 [0] 0 [1, 2, 3] (by decide) (by decide)⟩
